import Mathlib

/-!
Verification of the DSP core of the analogue-synth emulation repository:
the Moog ladder filter worklet, the Korg transistor-ladder filter worklet,
the BBD chorus worklet, the step sequencer, and the envelope helpers.
Real-valued JavaScript arithmetic is embedded as exact arithmetic over `ℚ`
where the source only uses field operations and comparisons, and over `ℝ`
where the source calls the transcendental functions `Math.tan` / `Math.sin`.
-/

/- ===== MoogLadderProcessor (src/worklets/MoogLadderProcessor.js) ===== -/

/-- Embedding of `MoogLadderProcessor._tanh`: the fast rational tanh
approximation (`1` for `x > 3`, `-1` for `x < -3`, else the rational form). -/
def jsTanh (x : ℚ) : ℚ :=
  if x > 3 then 1
  else if x < -3 then -1
  else x * (27 + x * x) / (27 + 9 * (x * x))

/-- Persisted per-voice filter state: the four one-pole stage outputs. -/
structure MoogState where
  y1 : ℚ
  y2 : ℚ
  y3 : ℚ
  y4 : ℚ
deriving DecidableEq

/-- Embedding of one iteration of the sample loop in
`MoogLadderProcessor.process` (lines 49-68 of the source): returns the
output sample together with the updated stage state. -/
def moogStep (SR cutoff resonance input : ℚ) (st : MoogState) : ℚ × MoogState :=
  let f := 2 * cutoff / SR
  let fc := min f 0.999
  let fb := resonance * (1 - 0.15 * fc * fc)
  let x := input - fb * st.y4
  let y1 := st.y1 + fc * (jsTanh (x * 0.5) - jsTanh (st.y1 * 0.5))
  let y2 := st.y2 + fc * (jsTanh (y1 * 0.5) - jsTanh (st.y2 * 0.5))
  let y3 := st.y3 + fc * (jsTanh (y2 * 0.5) - jsTanh (st.y3 * 0.5))
  let y4 := st.y4 + fc * (jsTanh (y3 * 0.5) - jsTanh (st.y4 * 0.5))
  (y4, ⟨y1, y2, y3, y4⟩)

/-- Embedding of the whole `process` loop: each element of `samples` is the
`(input, cutoff, resonance)` triple read for one sample (the source reads
a-rate parameter arrays per sample). Returns the output block and final state. -/
def moogProcess (SR : ℚ) (samples : List (ℚ × ℚ × ℚ)) (st : MoogState) :
    List ℚ × MoogState :=
  match samples with
  | [] => ([], st)
  | (x, c, r) :: rest =>
    let p := moogStep SR c r x st
    let q := moogProcess SR rest p.2
    (p.1 :: q.1, q.2)

/-- Reference saturator written from the spec text: returns `±1` for
`|x| > 3` and `x·(27+x²)/(27+9x²)` otherwise. -/
def satSpec (x : ℚ) : ℚ :=
  if 3 < |x| then (if 0 < x then 1 else -1)
  else x * (27 + x ^ 2) / (27 + 9 * x ^ 2)

/-- Reference per-sample step written from the spec text for Variant A:
`fc = min(2·cutoff/sampleRate, 0.999)`, `fb = resonance·(1 − 0.15·fc²)`,
`x = input − fb·y4`, four cascaded stages
`yN = yN + fc·(sat(stageInput·0.5) − sat(yN·0.5))`, output the updated `y4`. -/
def moogStepSpec (SR cutoff resonance input : ℚ) (st : MoogState) : ℚ × MoogState :=
  let fc := min (2 * cutoff / SR) 0.999
  let fb := resonance * (1 - 0.15 * fc ^ 2)
  let x := input - fb * st.y4
  let y1 := st.y1 + fc * (satSpec (x * 0.5) - satSpec (st.y1 * 0.5))
  let y2 := st.y2 + fc * (satSpec (y1 * 0.5) - satSpec (st.y2 * 0.5))
  let y3 := st.y3 + fc * (satSpec (y2 * 0.5) - satSpec (st.y3 * 0.5))
  let y4 := st.y4 + fc * (satSpec (y3 * 0.5) - satSpec (st.y4 * 0.5))
  (y4, ⟨y1, y2, y3, y4⟩)

theorem jsTanh_eq_satSpec : jsTanh = satSpec := by
  funext x
  unfold jsTanh satSpec
  rcases lt_trichotomy x 0 with hx | hx | hx
  · rcases lt_or_le (-3) x with h3 | h3
    · rw [if_neg (by linarith), if_neg (by linarith),
        if_neg (by rw [abs_of_nonpos (le_of_lt hx)]; linarith)]
      ring_nf
    · rcases eq_or_lt_of_le h3 with h3 | h3
      · rw [if_neg (by linarith), if_neg (by linarith),
          if_neg (by rw [abs_of_nonpos (le_of_lt hx)]; linarith)]
        ring_nf
      · rw [if_neg (by linarith), if_pos h3,
          if_pos (by rw [abs_of_nonpos (le_of_lt hx)]; linarith),
          if_neg (by linarith)]
  · subst hx
    norm_num
  · rcases lt_or_le 3 x with h3 | h3
    · rw [if_pos h3, if_pos (by rw [abs_of_pos hx]; exact h3), if_pos hx]
    · rw [if_neg (by linarith), if_neg (by linarith),
        if_neg (by rw [abs_of_pos hx]; linarith)]
      ring_nf

/-- C1: one per-sample step of the Variant A (Moog ladder) filter equals the
reference definition from the spec: with `fc = min(2·cutoff/sampleRate, 0.999)`
and `fb = resonance·(1 − 0.15·fc²)`, stage input `x = input − fb·y4` (previous
`y4`), cascaded updates `yN = yN + fc·(sat(stageInput·0.5) − sat(yN·0.5))`,
output the updated `y4`, with `sat` the rational saturator that returns `±1`
for `|x| > 3` and `x·(27+x²)/(27+9x²)` otherwise. -/
theorem moogStep_eq_spec (SR cutoff resonance input : ℚ) (st : MoogState) :
    moogStep SR cutoff resonance input st = moogStepSpec SR cutoff resonance input st := by
  unfold moogStep moogStepSpec
  rw [jsTanh_eq_satSpec]
  ring_nf

/- ===== KorgFilterProcessor (src/unnamed/part_002, KorgFilterProcessor.js) ===== -/

/-- Embedding of `KorgFilterProcessor._clip`: hard-clip saturation
`max(-1, min(1, x * 0.7))`. The source computes over JavaScript floats with
`Math.tan`, so this variant is embedded over `ℝ`. -/
def jsClip (x : ℝ) : ℝ := max (-1) (min 1 (x * 0.7))

/-- Persisted per-voice filter state of the Korg variant: four stage values. -/
structure KorgState where
  s1 : ℝ
  s2 : ℝ
  s3 : ℝ
  s4 : ℝ

/-- Embedding of one iteration of the sample loop in
`KorgFilterProcessor.process` (lines 37-53 of the source). -/
noncomputable def korgStep (SR cutoff peak input : ℝ) (st : KorgState) : ℝ × KorgState :=
  let g := Real.tan (Real.pi * min cutoff (SR * 0.49) / SR)
  let G := g / (1 + g)
  let fb := peak * 4
  let u := jsClip (input - fb * st.s4)
  let s1 := st.s1 + G * (jsClip u - st.s1)
  let s2 := st.s2 + G * (jsClip s1 - st.s2)
  let s3 := st.s3 + G * (jsClip s2 - st.s3)
  let s4 := st.s4 + G * (jsClip s3 - st.s4)
  (s4, ⟨s1, s2, s3, s4⟩)

/-- Embedding of the whole Korg `process` loop over `(input, cutoff, peak)`
triples, one triple per sample. -/
noncomputable def korgProcess (SR : ℝ) (samples : List (ℝ × ℝ × ℝ)) (st : KorgState) :
    List ℝ × KorgState :=
  match samples with
  | [] => ([], st)
  | (x, c, p) :: rest =>
    let q := korgStep SR c p x st
    let w := korgProcess SR rest q.2
    (q.1 :: w.1, w.2)

/-- Reference hard clip written from the spec text:
`clip(x) = max(-1, min(1, 0.7·x))`. -/
def clipSpec (x : ℝ) : ℝ := max (-1) (min 1 (0.7 * x))

/-- Reference per-sample step written from the spec text for Variant B:
`g = tan(π·min(cutoff, 0.49·sampleRate)/sampleRate)`, `G = g/(1+g)`,
`fb = peak·4`, hard clipping applied at the filter input `input − fb·s4` and
again at each of the four stage inputs, stage update
`sN = sN + G·(clip(stageInput) − sN)`, output the updated `s4`. -/
noncomputable def korgStepSpec (SR cutoff peak input : ℝ) (st : KorgState) : ℝ × KorgState :=
  let g := Real.tan (Real.pi * min cutoff (0.49 * SR) / SR)
  let G := g / (1 + g)
  let fb := peak * 4
  let u := clipSpec (input - fb * st.s4)
  let s1 := st.s1 + G * (clipSpec u - st.s1)
  let s2 := st.s2 + G * (clipSpec s1 - st.s2)
  let s3 := st.s3 + G * (clipSpec s2 - st.s3)
  let s4 := st.s4 + G * (clipSpec s3 - st.s4)
  (s4, ⟨s1, s2, s3, s4⟩)

theorem jsClip_eq_clipSpec : jsClip = clipSpec := by
  funext x
  unfold jsClip clipSpec
  rw [mul_comm]

/-- C3: one per-sample step of the Variant B (transistor-ladder) filter equals
the reference definition from the spec: `g = tan(π·min(cutoff,
0.49·sampleRate)/sampleRate)`, `G = g/(1+g)`, `fb = peak·4`, hard clip
`clip(x) = max(-1, min(1, 0.7·x))` applied at the filter input `input − fb·s4`
and again at each of the four stage inputs, stage update
`sN = sN + G·(clip(stageInput) − sN)`, output the updated fourth stage. -/
theorem korgStep_eq_spec (SR cutoff peak input : ℝ) (st : KorgState) :
    korgStep SR cutoff peak input st = korgStepSpec SR cutoff peak input st := by
  unfold korgStep korgStepSpec
  rw [jsClip_eq_clipSpec, mul_comm SR (0.49 : ℝ)]

/- ===== C2: boundedness of both filter variants ===== -/

theorem jsTanh_abs_le (x : ℚ) : |jsTanh x| ≤ 1 := by
  unfold jsTanh
  split_ifs with h1 h2
  · norm_num
  · norm_num
  · push_neg at h1 h2
    rw [abs_le]
    have hd : (0:ℚ) < 27 + 9 * (x * x) := by nlinarith [sq_nonneg x]
    constructor
    · rw [le_div_iff hd]
      nlinarith [sq_nonneg (x + 3)]
    · rw [div_le_iff hd]
      nlinarith [sq_nonneg (x - 3)]

theorem moogStage_bound (B y s fc : ℚ) (hB : 8 ≤ B) (hy : |y| ≤ B) (hs : |s| ≤ 1)
    (hfc0 : 0 ≤ fc) (hfc1 : fc ≤ 1) : |y + fc * (s - jsTanh (y * 0.5))| ≤ B := by
  have ht := jsTanh_abs_le (y * 0.5)
  rw [abs_le] at hy hs ht ⊢
  constructor
  · rcases lt_or_le y (-6) with h6 | h6
    · have htm : jsTanh (y * 0.5) = -1 := by
        unfold jsTanh
        rw [if_neg (by norm_num; linarith), if_pos (by norm_num; linarith)]
      rw [htm]
      nlinarith [mul_nonneg hfc0 (show (0:ℚ) ≤ s - -1 by linarith)]
    · nlinarith [mul_nonneg hfc0 (show (0:ℚ) ≤ s - jsTanh (y * 0.5) + 2 by linarith)]
  · rcases lt_or_le 6 y with h6 | h6
    · have htm : jsTanh (y * 0.5) = 1 := by
        unfold jsTanh
        rw [if_pos (by norm_num; linarith)]
      rw [htm]
      nlinarith [mul_nonneg hfc0 (show (0:ℚ) ≤ 1 - s by linarith)]
    · nlinarith [mul_nonneg hfc0 (show (0:ℚ) ≤ 2 - (s - jsTanh (y * 0.5)) by linarith)]

/-- Invariant stating that all four persisted Moog stage values are bounded
in absolute value by `B`. -/
def MoogState.Bounded (st : MoogState) (B : ℚ) : Prop :=
  |st.y1| ≤ B ∧ |st.y2| ≤ B ∧ |st.y3| ≤ B ∧ |st.y4| ≤ B

instance (st : MoogState) (B : ℚ) : Decidable (st.Bounded B) := by
  unfold MoogState.Bounded
  infer_instance

theorem moogStep_bounded (SR cutoff r x B : ℚ) (st : MoogState)
    (hSR : 0 < SR) (hcut : 20 ≤ cutoff) (hB : 8 ≤ B) (hst : st.Bounded B) :
    |(moogStep SR cutoff r x st).1| ≤ B ∧ ((moogStep SR cutoff r x st).2).Bounded B := by
  obtain ⟨h1, h2, h3, h4⟩ := hst
  have hfc0 : (0:ℚ) ≤ min (2 * cutoff / SR) 0.999 :=
    le_min (div_nonneg (by linarith) (le_of_lt hSR)) (by norm_num)
  have hfc1 : min (2 * cutoff / SR) (0.999 : ℚ) ≤ 1 :=
    le_trans (min_le_right _ _) (by norm_num)
  simp only [moogStep, MoogState.Bounded]
  refine ⟨?_, ?_, ?_, ?_, ?_⟩
  · exact moogStage_bound _ _ _ _ hB h4 (jsTanh_abs_le _) hfc0 hfc1
  · exact moogStage_bound _ _ _ _ hB h1 (jsTanh_abs_le _) hfc0 hfc1
  · exact moogStage_bound _ _ _ _ hB h2 (jsTanh_abs_le _) hfc0 hfc1
  · exact moogStage_bound _ _ _ _ hB h3 (jsTanh_abs_le _) hfc0 hfc1
  · exact moogStage_bound _ _ _ _ hB h4 (jsTanh_abs_le _) hfc0 hfc1

theorem moogProcess_bounded (SR B : ℚ) (samples : List (ℚ × ℚ × ℚ)) (st : MoogState)
    (hSR : 0 < SR) (hB : 8 ≤ B)
    (hp : ∀ p ∈ samples, 20 ≤ p.2.1) (hst : st.Bounded B) :
    (∀ o ∈ (moogProcess SR samples st).1, |o| ≤ B) ∧
      ((moogProcess SR samples st).2).Bounded B := by
  induction samples generalizing st with
  | nil => simpa [moogProcess] using hst
  | cons a rest ih =>
    obtain ⟨x, c, r⟩ := a
    have hc : 20 ≤ c := hp (x, c, r) (List.mem_cons_self _ _)
    have hstep := moogStep_bounded SR c r x B st hSR hc hB hst
    have hrest := ih (moogStep SR c r x st).2
      (fun p hp' => hp p (List.mem_cons_of_mem _ hp')) hstep.2
    simp only [moogProcess]
    constructor
    · intro o ho
      simp only [List.mem_cons] at ho
      rcases ho with rfl | ho
      · exact hstep.1
      · exact hrest.1 o ho
    · exact hrest.2

theorem jsClip_abs_le (x : ℝ) : |jsClip x| ≤ 1 := by
  unfold jsClip
  rw [abs_le]
  exact ⟨le_max_left _ _, max_le (by norm_num) (min_le_left _ _)⟩

theorem korgStage_bound (B s c G : ℝ) (hB : 1 ≤ B) (hs : |s| ≤ B) (hc : |c| ≤ 1)
    (hG0 : 0 ≤ G) (hG1 : G ≤ 1) : |s + G * (c - s)| ≤ B := by
  rw [abs_le] at hs hc ⊢
  constructor
  · nlinarith [mul_nonneg (show (0:ℝ) ≤ 1 - G by linarith) (show (0:ℝ) ≤ s + B by linarith),
      mul_nonneg hG0 (show (0:ℝ) ≤ c + B by linarith)]
  · nlinarith [mul_nonneg (show (0:ℝ) ≤ 1 - G by linarith) (show (0:ℝ) ≤ B - s by linarith),
      mul_nonneg hG0 (show (0:ℝ) ≤ B - c by linarith)]

theorem korgG_bound (SR cutoff : ℝ) (hSR : 0 < SR) (hcut : 20 ≤ cutoff) :
    0 ≤ Real.tan (Real.pi * min cutoff (SR * 0.49) / SR) /
        (1 + Real.tan (Real.pi * min cutoff (SR * 0.49) / SR)) ∧
      Real.tan (Real.pi * min cutoff (SR * 0.49) / SR) /
        (1 + Real.tan (Real.pi * min cutoff (SR * 0.49) / SR)) ≤ 1 := by
  have hm0 : (0:ℝ) ≤ min cutoff (SR * 0.49) := le_min (by linarith) (by nlinarith)
  have hθ0 : 0 ≤ Real.pi * min cutoff (SR * 0.49) / SR :=
    div_nonneg (mul_nonneg Real.pi_nonneg hm0) hSR.le
  have hθ1 : Real.pi * min cutoff (SR * 0.49) / SR ≤ Real.pi / 2 := by
    rw [div_le_div_iff hSR (by norm_num : (0:ℝ) < 2)]
    have hm : min cutoff (SR * 0.49) ≤ SR * 0.49 := min_le_right _ _
    nlinarith [mul_le_mul_of_nonneg_left hm Real.pi_nonneg,
      mul_nonneg Real.pi_nonneg hSR.le]
  have hg : 0 ≤ Real.tan (Real.pi * min cutoff (SR * 0.49) / SR) :=
    Real.tan_nonneg_of_nonneg_of_le_pi_div_two hθ0 hθ1
  constructor
  · exact div_nonneg hg (by linarith)
  · rw [div_le_one (by linarith)]
    linarith

/-- Invariant stating that all four persisted Korg stage values are bounded
in absolute value by `B`. -/
def KorgState.Bounded (st : KorgState) (B : ℝ) : Prop :=
  |st.s1| ≤ B ∧ |st.s2| ≤ B ∧ |st.s3| ≤ B ∧ |st.s4| ≤ B

theorem korgStep_bounded (SR cutoff p x B : ℝ) (st : KorgState)
    (hSR : 0 < SR) (hcut : 20 ≤ cutoff) (hB : 1 ≤ B) (hst : st.Bounded B) :
    |(korgStep SR cutoff p x st).1| ≤ B ∧ ((korgStep SR cutoff p x st).2).Bounded B := by
  obtain ⟨h1, h2, h3, h4⟩ := hst
  obtain ⟨hG0, hG1⟩ := korgG_bound SR cutoff hSR hcut
  simp only [korgStep, KorgState.Bounded]
  refine ⟨?_, ?_, ?_, ?_, ?_⟩
  · exact korgStage_bound _ _ _ _ hB h4 (jsClip_abs_le _) hG0 hG1
  · exact korgStage_bound _ _ _ _ hB h1 (jsClip_abs_le _) hG0 hG1
  · exact korgStage_bound _ _ _ _ hB h2 (jsClip_abs_le _) hG0 hG1
  · exact korgStage_bound _ _ _ _ hB h3 (jsClip_abs_le _) hG0 hG1
  · exact korgStage_bound _ _ _ _ hB h4 (jsClip_abs_le _) hG0 hG1

theorem korgProcess_bounded (SR B : ℝ) (samples : List (ℝ × ℝ × ℝ)) (st : KorgState)
    (hSR : 0 < SR) (hB : 1 ≤ B)
    (hp : ∀ p ∈ samples, 20 ≤ p.2.1) (hst : st.Bounded B) :
    (∀ o ∈ (korgProcess SR samples st).1, |o| ≤ B) ∧
      ((korgProcess SR samples st).2).Bounded B := by
  induction samples generalizing st with
  | nil => simpa [korgProcess] using hst
  | cons a rest ih =>
    obtain ⟨x, c, r⟩ := a
    have hc : 20 ≤ c := hp (x, c, r) (List.mem_cons_self _ _)
    have hstep := korgStep_bounded SR c r x B st hSR hc hB hst
    have hrest := ih (korgStep SR c r x st).2
      (fun p hp' => hp p (List.mem_cons_of_mem _ hp')) hstep.2
    simp only [korgProcess]
    constructor
    · intro o ho
      simp only [List.mem_cons] at ho
      rcases ho with rfl | ho
      · exact hstep.1
      · exact hrest.1 o ho
    · exact hrest.2

/-- C2: for every cutoff in `[20, 20000]`, resonance/peak in `[0, 4]`, every
initial state bounded by `B` (any finite state admits such a `B`), and every
finite input sequence, all four persisted stage values after any prefix of the
block and every output sample of both filter variants remain bounded by the
fixed constant `B` — the real-arithmetic rendering of "never NaN and never
infinite". Variant A (Moog, exact rational arithmetic) keeps every value in
`[-B, B]` for any `B ≥ 8`; Variant B (Korg, real arithmetic via `tan`) keeps
every value in `[-B₂, B₂]` for any `B₂ ≥ 1`. -/
theorem filters_remain_finite
    (SR B : ℚ) (samples : List (ℚ × ℚ × ℚ)) (st : MoogState) (j k : ℕ)
    (SR2 B2 : ℝ) (samples2 : List (ℝ × ℝ × ℝ)) (st2 : KorgState) (j2 k2 : ℕ)
    (hSR : 0 < SR) (hB : 8 ≤ B)
    (hp : ∀ p ∈ samples, 20 ≤ p.2.1 ∧ p.2.1 ≤ 20000 ∧ 0 ≤ p.2.2 ∧ p.2.2 ≤ 4)
    (hst : st.Bounded B)
    (hSR2 : 0 < SR2) (hB2 : 1 ≤ B2)
    (hp2 : ∀ p ∈ samples2, 20 ≤ p.2.1 ∧ p.2.1 ≤ 20000 ∧ 0 ≤ p.2.2 ∧ p.2.2 ≤ 4)
    (hst2 : st2.Bounded B2) :
    |(moogProcess SR samples st).1.getD j 0| ≤ B ∧
      ((moogProcess SR (samples.take k) st).2).Bounded B ∧
      |(korgProcess SR2 samples2 st2).1.getD j2 0| ≤ B2 ∧
      ((korgProcess SR2 (samples2.take k2) st2).2).Bounded B2 := by
  have hm := moogProcess_bounded SR B samples st hSR hB (fun p h => (hp p h).1) hst
  have hmk := moogProcess_bounded SR B (samples.take k) st hSR hB
    (fun p h => (hp p (List.take_subset _ _ h)).1) hst
  have hk := korgProcess_bounded SR2 B2 samples2 st2 hSR2 hB2 (fun p h => (hp2 p h).1) hst2
  have hkk := korgProcess_bounded SR2 B2 (samples2.take k2) st2 hSR2 hB2
    (fun p h => (hp2 p (List.take_subset _ _ h)).1) hst2
  refine ⟨?_, hmk.2, ?_, hkk.2⟩
  · rcases lt_or_le j (moogProcess SR samples st).1.length with hj | hj
    · rw [List.getD_eq_get _ _ hj]
      exact hm.1 _ (List.get_mem _ _ _)
    · rw [List.getD_eq_default _ _ hj]
      simpa using by linarith
  · rcases lt_or_le j2 (korgProcess SR2 samples2 st2).1.length with hj | hj
    · rw [List.getD_eq_get _ _ hj]
      exact hk.1 _ (List.get_mem _ _ _)
    · rw [List.getD_eq_default _ _ hj]
      simpa using by linarith

theorem filters_remain_finite_witness :
    |(moogProcess 44100 [(1, 1000, 2)] ⟨0, 0, 0, 0⟩).1.getD 0 0| ≤ 8 ∧
      ((moogProcess 44100 (List.take 1 [(1, 1000, 2)]) ⟨0, 0, 0, 0⟩).2).Bounded 8 ∧
      |(korgProcess 44100 [(1, 1000, 2)] ⟨0, 0, 0, 0⟩).1.getD 0 0| ≤ 1 ∧
      ((korgProcess 44100 (List.take 1 [(1, 1000, 2)]) ⟨0, 0, 0, 0⟩).2).Bounded 1 :=
  filters_remain_finite 44100 8 [(1, 1000, 2)] ⟨0, 0, 0, 0⟩ 0 1
    44100 1 [(1, 1000, 2)] ⟨0, 0, 0, 0⟩ 0 1
    (by decide) (by decide) (by decide) (by decide)
    (by norm_num) (by norm_num)
    (by rintro p hp
        simp only [List.mem_singleton] at hp
        subst hp
        norm_num)
    (by norm_num [KorgState.Bounded])

/- ===== BBDChorusProcessor (src/unnamed/part_000, BBDChorusProcessor.js) ===== -/

theorem neg_tmod_dividend (a b : ℤ) : (-a).tmod b = -(a.tmod b) := by
  rw [Int.tmod_def, Int.tmod_def, Int.neg_tdiv]
  ring

/-- Key index identity: the JavaScript double-remainder pattern
`((m % n) + n) % n` (with `%` the truncated remainder) equals the
Euclidean (always-nonnegative) remainder, for positive `n`. -/
theorem tmod_add_self_tmod (a n : ℤ) (hn : 0 < n) : (a.tmod n + n).tmod n = a % n := by
  have hlt : a.tmod n < n := Int.tmod_lt_of_pos a hn
  have hgt : -n < a.tmod n := by
    rcases le_or_lt 0 a with ha | ha
    · have := Int.tmod_nonneg n ha
      linarith
    · have h2 : (-a).tmod n < n := Int.tmod_lt_of_pos (-a) hn
      have h3 : (-a).tmod n = -(a.tmod n) := neg_tmod_dividend a n
      linarith
  have h0 : 0 ≤ a.tmod n + n := by linarith
  rw [Int.tmod_eq_emod h0 hn.le, Int.add_emod_self, Int.tmod_def, sub_eq_add_neg,
    Int.neg_mul_eq_mul_neg, Int.add_mul_emod_self_left]

/-- Embedding of `BBDChorusProcessor._readInterp` (lines 30-36 of the source):
fractional-delay read with linear interpolation, JavaScript `%` (truncated
remainder) rendered as `Int.tmod`. Generic over the arithmetic carrier so the
same definition serves exact (`ℚ`) and real (`ℝ`) instantiations. -/
def readInterp {K : Type} [LinearOrderedField K] [FloorRing K]
    (n : ℤ) (buf : ℕ → K) (writePos delaySamples : K) : K :=
  let ri := writePos - delaySamples
  let i0 := ((Int.floor ri).tmod n + n).tmod n
  let i1 := (i0 + 1).tmod n
  let frac := ri - (Int.floor ri : K)
  buf i0.toNat * (1 - frac) + buf i1.toNat * frac

/-- Reference read contract written from the spec text: `i0 = floor(writePos −
d) mod capacity` with the result corrected to be non-negative (the Euclidean
remainder), `i1 = (i0+1) mod capacity`, `frac` the fractional part, output
`buf[i0]·(1−frac) + buf[i1]·frac`. -/
def readInterpSpec {K : Type} [LinearOrderedField K] [FloorRing K]
    (n : ℤ) (buf : ℕ → K) (writePos delaySamples : K) : K :=
  let i0 := Int.floor (writePos - delaySamples) % n
  let i1 := (i0 + 1) % n
  let frac := (writePos - delaySamples) - (Int.floor (writePos - delaySamples) : K)
  buf i0.toNat * (1 - frac) + buf i1.toNat * frac

/-- C6: for every buffer content, write cursor in `[0, capacity)`, and
non-negative fractional delay not exceeding the capacity, the interpolated
read of the delay line equals the reference contract `buf[i0]·(1−frac) +
buf[i1]·frac` with `i0 = floor(writePos−d) mod capacity` corrected to be
non-negative, `i1 = (i0+1) mod capacity`, and `frac` the fractional part of
`writePos−d` — including every wraparound case. -/
theorem readInterp_eq_spec {K : Type} [LinearOrderedField K] [FloorRing K]
    (n : ℤ) (buf : ℕ → K) (w d : K)
    (hn : 0 < n) (hw0 : 0 ≤ w) (hw : w < (n : K)) (hd0 : 0 ≤ d) (hd : d ≤ (n : K)) :
    readInterp n buf w d = readInterpSpec n buf w d := by
  simp only [readInterp, readInterpSpec]
  rw [tmod_add_self_tmod _ _ hn]
  have hpos : 0 ≤ Int.floor (w - d) % n + 1 := by
    have h := Int.emod_nonneg (Int.floor (w - d)) hn.ne'
    linarith
  rw [Int.tmod_eq_emod hpos hn.le]

theorem readInterp_eq_spec_witness :
    readInterp 4 (fun i => (i : ℚ)) 1 (5/2) = readInterpSpec 4 (fun i => (i : ℚ)) 1 (5/2) :=
  readInterp_eq_spec 4 (fun i => (i : ℚ)) 1 (5/2)
    (by norm_num) (by norm_num) (by norm_num) (by norm_num) (by norm_num)

/-- Persisted chorus state: the two delay-line buffers, the shared write
cursor, and the two LFO phase accumulators. -/
structure ChorusState where
  buf1 : ℕ → ℝ
  buf2 : ℕ → ℝ
  writePos : ℕ
  lfoPhase1 : ℝ
  lfoPhase2 : ℝ

/-- Buffer capacity computed in the constructor:
`Math.ceil(sampleRate * 30 / 1000) + 1`. -/
noncomputable def chorusBufSize (SR : ℝ) : ℤ := ⌈SR * 30 / 1000⌉ + 1

/-- Constructor state: zero-initialised buffers, write cursor 0, first LFO
phase 0, second LFO phase offset by `π`. -/
noncomputable def chorusState0 : ChorusState := ⟨fun _ => 0, fun _ => 0, 0, 0, Real.pi⟩

/-- Truncation toward zero, the rounding used by the JavaScript `%` operator
on floats. -/
noncomputable def rTrunc (x : ℝ) : ℤ := if 0 ≤ x then ⌊x⌋ else ⌈x⌉

/-- JavaScript floating `%` (remainder with the sign of the dividend). -/
noncomputable def jsRem (a b : ℝ) : ℝ := a - b * rTrunc (a / b)

/-- Embedding of one iteration of the sample loop in
`BBDChorusProcessor.process` (lines 58-94 of the source), for an already
rounded `mode`. `twoCh` records whether the host supplied two distinct output
channels (`outR !== outL`). Returns the pair of output samples (left, right)
and the updated state. -/
noncomputable def chorusStep (n : ℕ) (SR : ℝ) (twoCh : Bool) (mode : ℤ)
    (rate depth : ℝ) (x : ℝ) (st : ChorusState) : (ℝ × ℝ) × ChorusState :=
  let buf1 := fun i => if i = st.writePos then x else st.buf1 i
  let buf2 := fun i => if i = st.writePos then x else st.buf2 i
  let lfoInc := 2 * Real.pi * rate / SR
  let wp := (st.writePos + 1) % n
  if mode = 0 then
    ((x, x), ⟨buf1, buf2, wp, st.lfoPhase1, st.lfoPhase2⟩)
  else if mode = 1 then
    let lfoVal := Real.sin st.lfoPhase1
    let delMs := 15.0 + lfoVal * (6 * depth)
    let delSmp := delMs * SR / 1000
    let wet := readInterp (n : ℤ) buf1 (st.writePos : ℝ) delSmp
    let out := x * 0.5 + wet * 0.5
    ((out, out),
      ⟨buf1, buf2, wp, jsRem (st.lfoPhase1 + lfoInc) (2 * Real.pi), st.lfoPhase2⟩)
  else
    let lfo1 := Real.sin st.lfoPhase1
    let lfo2 := Real.sin st.lfoPhase2
    let delMs1 := 8.0 + lfo1 * (4 * depth)
    let delMs2 := 8.0 + lfo2 * (4 * depth)
    let wet1 := readInterp (n : ℤ) buf1 (st.writePos : ℝ) (delMs1 * SR / 1000)
    let wet2 := readInterp (n : ℤ) buf2 (st.writePos : ℝ) (delMs2 * SR / 1000)
    let oL := x * 0.5 + wet1 * 0.5
    let oR := x * 0.5 + wet2 * 0.5
    let outs := if twoCh then (oL, oR) else ((oL + oR) * 0.5, (oL + oR) * 0.5)
    (outs,
      ⟨buf1, buf2, wp, jsRem (st.lfoPhase1 + lfoInc) (2 * Real.pi),
        jsRem (st.lfoPhase2 + lfoInc) (2 * Real.pi)⟩)

/-- Sample loop of the chorus for a fixed rounded mode: returns the left and
right output blocks and the final state. -/
noncomputable def chorusRun (n : ℕ) (SR : ℝ) (twoCh : Bool) (mode : ℤ)
    (rate depth : ℝ) (xs : List ℝ) (st : ChorusState) : (List ℝ × List ℝ) × ChorusState :=
  match xs with
  | [] => (([], []), st)
  | x :: rest =>
    let q := chorusStep n SR twoCh mode rate depth x st
    let w := chorusRun n SR twoCh mode rate depth rest q.2
    ((q.1.1 :: w.1.1, q.1.2 :: w.1.2), w.2)

/-- Embedding of `BBDChorusProcessor.process` for one block: the raw mode
parameter is rounded once per block (`Math.round(parameters.mode[0])`). -/
noncomputable def chorusProcess (n : ℕ) (SR : ℝ) (twoCh : Bool)
    (modeRaw rate depth : ℝ) (xs : List ℝ) (st : ChorusState) :
    (List ℝ × List ℝ) × ChorusState :=
  chorusRun n SR twoCh (round modeRaw) rate depth xs st

theorem chorusStep_mode0 (n : ℕ) (SR rate depth x : ℝ) (twoCh : Bool) (st : ChorusState) :
    chorusStep n SR twoCh 0 rate depth x st =
      ((x, x),
        ⟨fun i => if i = st.writePos then x else st.buf1 i,
          fun i => if i = st.writePos then x else st.buf2 i,
          (st.writePos + 1) % n, st.lfoPhase1, st.lfoPhase2⟩) := by
  simp [chorusStep]

theorem chorusRun_mode0 (n : ℕ) (SR rate depth : ℝ) (twoCh : Bool)
    (xs : List ℝ) (st : ChorusState) :
    ((chorusRun n SR twoCh 0 rate depth xs st).1).1 = xs ∧
      ((chorusRun n SR twoCh 0 rate depth xs st).1).2 = xs := by
  induction xs generalizing st with
  | nil => simp [chorusRun]
  | cons x rest ih =>
    simp only [chorusRun, chorusStep_mode0]
    exact ⟨congrArg (x :: ·) (ih _).1, congrArg (x :: ·) (ih _).2⟩

/-- C7: with mode 0 the chorus block processor writes each output sample equal
to the corresponding input sample exactly, on both output channels, for every
block length, rate, depth and state. -/
theorem chorus_mode0_bypass (n : ℕ) (SR rate depth modeRaw : ℝ) (twoCh : Bool)
    (xs : List ℝ) (st : ChorusState) (h : round modeRaw = 0) :
    ((chorusProcess n SR twoCh modeRaw rate depth xs st).1).1 = xs ∧
      ((chorusProcess n SR twoCh modeRaw rate depth xs st).1).2 = xs := by
  unfold chorusProcess
  rw [h]
  exact chorusRun_mode0 n SR rate depth twoCh xs st

theorem chorus_mode0_bypass_witness :
    ((chorusProcess 1324 44100 true 0 0.5 0.6 [1, -1, 0.25] chorusState0).1).1
        = [1, -1, 0.25] ∧
      ((chorusProcess 1324 44100 true 0 0.5 0.6 [1, -1, 0.25] chorusState0).1).2
        = [1, -1, 0.25] :=
  chorus_mode0_bypass 1324 44100 0.5 0.6 0 true [1, -1, 0.25] chorusState0 (by simp)

/- ===== Sequencer (src/unnamed/part_004, Sequencer.js) ===== -/

/-- Step event dispatched to sequencer listeners: `{step, time}`. The step
index is an integer because `stop()` emits the reset sentinel `-1`. -/
structure StepEvent where
  step : ℤ
  time : ℚ
deriving DecidableEq

/-- Sequencer state: tempo, step count, swing, current step index, absolute
time of the next step to schedule, running flag, and registered listeners
(identified by registration order). -/
structure SeqState where
  bpm : ℚ
  steps : ℤ
  swing : ℚ
  currentStep : ℤ
  nextStepTime : ℚ
  running : Bool
  listeners : List ℕ
deriving DecidableEq

/-- Embedding of the utility `clamp(v, min, max) = Math.max(min, Math.min(max, v))`
from `src/core/utils.js`. -/
def clamp (v lo hi : ℚ) : ℚ := max lo (min hi v)

/-- Constructor state of `Sequencer`: bpm 120, 16 steps, no swing, step 0,
stopped, no listeners. -/
def seqState0 : SeqState := ⟨120, 16, 0, 0, 0, false, []⟩

/-- Embedding of the `bpm` setter: `Math.max(20, Math.min(400, v))`. -/
def setBpm (v : ℚ) (st : SeqState) : SeqState := { st with bpm := max 20 (min 400 v) }

/-- Embedding of the `steps` setter: stores its argument with no validation. -/
def setSteps (v : ℤ) (st : SeqState) : SeqState := { st with steps := v }

/-- Embedding of the `swing` setter: `clamp(v, 0, 0.5)`. -/
def setSwing (v : ℚ) (st : SeqState) : SeqState := { st with swing := clamp v 0 0.5 }

/-- Embedding of `Sequencer.start` for a given audio-clock reading: no-op when
already running, otherwise sets the running flag, resets the step index and
sets `nextStepTime = currentTime + 0.05`. (The host `setInterval` handle is an
external resource and is not part of the state model.) -/
def seqStart (ctxTime : ℚ) (st : SeqState) : SeqState :=
  if st.running then st
  else { st with running := true, currentStep := 0, nextStepTime := ctxTime + 0.05 }

/-- Embedding of `Sequencer.stop`: unconditionally clears the running flag,
resets the step index, and emits the reset sentinel `{step: -1, time: 0}` to
every registered listener in registration order. -/
def seqStop (st : SeqState) : SeqState × List (ℕ × StepEvent) :=
  ({ st with running := false, currentStep := 0 },
    st.listeners.map (fun l => (l, ⟨-1, 0⟩)))

/-- Embedding of `Sequencer._stepDuration`: `(60 / bpm) / 4`. -/
def stepDuration (st : SeqState) : ℚ := 60 / st.bpm / 4

/-- Lookahead window of the scheduler: `_scheduleAheadTime = 0.1` seconds. -/
def scheduleAheadTime : ℚ := 0.1

/-- Embedding of the `while` loop of `Sequencer._schedule`, with explicit
fuel for the recursion (the loop terminates because `nextStepTime` strictly
increases each iteration; every theorem below holds for every fuel value).
Returns the events emitted during the pass, in emission order, and the
resulting state. JavaScript `%` is the truncated remainder `Int.tmod`. -/
def scheduleAux : ℕ → SeqState → ℚ → List StepEvent × SeqState
  | 0, st, _ => ([], st)
  | fuel + 1, st, now =>
    if st.nextStepTime < now + scheduleAheadTime then
      let t := if 0 < st.swing ∧ st.currentStep.tmod 2 = 1
               then st.nextStepTime + stepDuration st * st.swing
               else st.nextStepTime
      let rest := scheduleAux fuel
        { st with nextStepTime := st.nextStepTime + stepDuration st,
                  currentStep := (st.currentStep + 1).tmod st.steps } now
      (⟨st.currentStep, t⟩ :: rest.1, rest.2)
    else ([], st)

/-- A run of the control-rate timer: each tick is a `(fuel, currentTime)`
pair, and the events of all scheduling passes are concatenated in order. -/
def runTicks (ticks : List (ℕ × ℚ)) (st : SeqState) : List StepEvent × SeqState :=
  match ticks with
  | [] => ([], st)
  | (fuel, now) :: rest =>
    let p := scheduleAux fuel st now
    let q := runTicks rest p.2
    (p.1 ++ q.1, q.2)

theorem tmod_add_tmod_left (b j S : ℤ) (hb : 0 ≤ b) (hj : 0 ≤ j) (hS : 0 < S) :
    (b.tmod S + j).tmod S = (b + j).tmod S := by
  have h1 : b.tmod S = b % S := Int.tmod_eq_emod hb hS.le
  have h2 : 0 ≤ b % S := Int.emod_nonneg b hS.ne'
  rw [h1, Int.tmod_eq_emod (by linarith) hS.le, Int.tmod_eq_emod (by linarith) hS.le,
    Int.emod_add_emod]

theorem scheduleAux_fields (fuel : ℕ) (st : SeqState) (now : ℚ) :
    ((scheduleAux fuel st now).2).bpm = st.bpm ∧
      ((scheduleAux fuel st now).2).steps = st.steps ∧
      ((scheduleAux fuel st now).2).swing = st.swing ∧
      ((scheduleAux fuel st now).2).running = st.running ∧
      ((scheduleAux fuel st now).2).listeners = st.listeners := by
  induction fuel generalizing st with
  | zero => simp [scheduleAux]
  | succ fuel ih =>
    simp only [scheduleAux]
    split
    · simpa using ih _
    · simp

theorem scheduleAux_counters (fuel : ℕ) (st : SeqState) (now : ℚ)
    (hS : 0 < st.steps) (hc0 : 0 ≤ st.currentStep) (hcS : st.currentStep < st.steps) :
    ((scheduleAux fuel st now).2).currentStep =
      (st.currentStep + (((scheduleAux fuel st now).1.length : ℤ))).tmod st.steps ∧
      ((scheduleAux fuel st now).2).nextStepTime =
        st.nextStepTime + (((scheduleAux fuel st now).1.length : ℚ)) * stepDuration st := by
  induction fuel generalizing st with
  | zero =>
    simp only [scheduleAux, List.length_nil, Nat.cast_zero, add_zero, zero_mul]
    exact ⟨(Int.tmod_eq_of_lt hc0 hcS).symm, trivial⟩
  | succ fuel ih =>
    simp only [scheduleAux]
    split
    · have ih' := ih
        { st with nextStepTime := st.nextStepTime + stepDuration st,
                  currentStep := (st.currentStep + 1).tmod st.steps }
        (by simpa using hS)
        (by simp only []
            exact Int.tmod_nonneg _ (by linarith))
        (by simp only []
            exact Int.tmod_lt_of_pos _ hS)
      simp only [List.length_cons, Nat.cast_add, Nat.cast_one] at ih' ⊢
      constructor
      · rw [ih'.1]
        simp only [stepDuration] at ih' ⊢
        rw [tmod_add_tmod_left _ _ _ (by linarith) (by positivity) hS]
        ring_nf
      · rw [ih'.2]
        simp only [stepDuration]
        ring
    · simp only [List.length_nil, Nat.cast_zero, add_zero, zero_mul]
      exact ⟨(Int.tmod_eq_of_lt hc0 hcS).symm, trivial⟩

theorem scheduleAux_events (fuel : ℕ) (st : SeqState) (now : ℚ) (j : ℕ)
    (hsw : 0 ≤ st.swing) (hS : 0 < st.steps) (hc0 : 0 ≤ st.currentStep)
    (hcS : st.currentStep < st.steps)
    (hj : j < (scheduleAux fuel st now).1.length) :
    ((scheduleAux fuel st now).1.getD j ⟨0, 0⟩).step =
      (st.currentStep + (j : ℤ)).tmod st.steps ∧
      ((scheduleAux fuel st now).1.getD j ⟨0, 0⟩).time =
        st.nextStepTime + (j : ℚ) * stepDuration st +
          (if ((st.currentStep + (j : ℤ)).tmod st.steps).tmod 2 = 1
           then stepDuration st * st.swing else 0) := by
  induction fuel generalizing st j with
  | zero => simp [scheduleAux] at hj
  | succ fuel ih =>
    simp only [scheduleAux] at hj ⊢
    by_cases hcond : st.nextStepTime < now + scheduleAheadTime
    · simp only [if_pos hcond] at hj ⊢
      cases j with
      | zero =>
        have hcc : (st.currentStep + ((0 : ℕ) : ℤ)).tmod st.steps = st.currentStep := by
          simpa using Int.tmod_eq_of_lt hc0 hcS
        constructor
        · simp only [List.getD_cons_zero]
          simpa using (Int.tmod_eq_of_lt hc0 hcS).symm
        · simp only [List.getD_cons_zero, Nat.cast_zero, zero_mul, add_zero,
            Int.tmod_eq_of_lt hc0 hcS]
          rcases eq_or_lt_of_le hsw with h0 | h0
          · rw [← h0]
            simp
          · by_cases hodd : st.currentStep.tmod 2 = 1
            · rw [if_pos ⟨h0, hodd⟩, if_pos hodd]
            · rw [if_neg (fun h => hodd h.2), if_neg hodd]
              exact (add_zero _).symm
      | succ j' =>
        simp only [List.length_cons] at hj
        have hj' : j' <
            (scheduleAux fuel
              { st with nextStepTime := st.nextStepTime + stepDuration st,
                        currentStep := (st.currentStep + 1).tmod st.steps } now).1.length := by
          omega
        have ihp := ih
          { st with nextStepTime := st.nextStepTime + stepDuration st,
                    currentStep := (st.currentStep + 1).tmod st.steps }
          j' hsw hS (Int.tmod_nonneg _ (by linarith)) (Int.tmod_lt_of_pos _ hS) hj'
        dsimp only at ihp
        rw [tmod_add_tmod_left _ _ _ (by linarith) (by positivity) hS] at ihp
        have hidx : st.currentStep + 1 + (j' : ℤ) = st.currentStep + ((j' + 1 : ℕ) : ℤ) := by
          push_cast
          ring
        rw [hidx] at ihp
        simp only [List.getD_cons_succ]
        refine ⟨ihp.1, ?_⟩
        rw [ihp.2]
        simp only [stepDuration]
        push_cast
        ring_nf
    · simp only [if_neg hcond] at hj
      simp at hj

/-- C5: for every swing value in `(0, 0.5]` and every scheduling pass, an
emitted event whose step index is odd carries time `nextStepTime +
stepDuration·swing` (its unswung slot time plus the swing offset), an event
whose step index is even carries its unswung slot time unchanged, and
`nextStepTime` itself advances only by whole unswung step durations — the
swing offset is never accumulated into the schedule. With `swing = 0.5` the
odd-step offset is exactly `0.5·stepDuration`. -/
theorem swing_offsets_events_only (st : SeqState) (now : ℚ) (fuel j : ℕ)
    (h1 : 0 < st.swing) (h2 : st.swing ≤ 0.5)
    (hS : 0 < st.steps) (hc0 : 0 ≤ st.currentStep) (hcS : st.currentStep < st.steps)
    (hj : j < (scheduleAux fuel st now).1.length) :
    ((scheduleAux fuel st now).1.getD j ⟨0, 0⟩).step =
        (st.currentStep + (j : ℤ)).tmod st.steps ∧
      ((scheduleAux fuel st now).1.getD j ⟨0, 0⟩).time =
        (st.nextStepTime + (j : ℚ) * stepDuration st) +
          (if (((scheduleAux fuel st now).1.getD j ⟨0, 0⟩).step).tmod 2 = 1
           then stepDuration st * st.swing else 0) ∧
      ((scheduleAux fuel st now).2).nextStepTime =
        st.nextStepTime + ((scheduleAux fuel st now).1.length : ℚ) * stepDuration st := by
  have he := scheduleAux_events fuel st now j h1.le hS hc0 hcS hj
  have hcnt := scheduleAux_counters fuel st now hS hc0 hcS
  refine ⟨he.1, ?_, hcnt.2⟩
  rw [he.2, he.1]

theorem swing_offsets_events_only_witness :
    ((scheduleAux 5 ⟨120, 16, 1/2, 0, 0, true, []⟩ (1/5)).1.getD 1 ⟨0, 0⟩).step =
        ((0 : ℤ) + ((1 : ℕ) : ℤ)).tmod 16 ∧
      ((scheduleAux 5 ⟨120, 16, 1/2, 0, 0, true, []⟩ (1/5)).1.getD 1 ⟨0, 0⟩).time =
        ((0 : ℚ) + ((1 : ℕ) : ℚ) * stepDuration ⟨120, 16, 1/2, 0, 0, true, []⟩) +
          (if (((scheduleAux 5 ⟨120, 16, 1/2, 0, 0, true, []⟩ (1/5)).1.getD 1
                  ⟨0, 0⟩).step).tmod 2 = 1
           then stepDuration ⟨120, 16, 1/2, 0, 0, true, []⟩ * (1/2 : ℚ) else 0) ∧
      ((scheduleAux 5 ⟨120, 16, 1/2, 0, 0, true, []⟩ (1/5)).2).nextStepTime =
        (0 : ℚ) + (((scheduleAux 5 ⟨120, 16, 1/2, 0, 0, true, []⟩ (1/5)).1.length : ℚ)) *
          stepDuration ⟨120, 16, 1/2, 0, 0, true, []⟩ :=
  swing_offsets_events_only ⟨120, 16, 1/2, 0, 0, true, []⟩ (1/5) 5 1
    (by norm_num) (by norm_num) (by norm_num) (by norm_num) (by norm_num)
    (by norm_num [scheduleAux, stepDuration, scheduleAheadTime])

theorem runTicks_events (ticks : List (ℕ × ℚ)) (st : SeqState) (m : ℕ) (t0 : ℚ)
    (hbpm : st.bpm = 120) (hS : st.steps = 16) (hsw : st.swing = 0)
    (hc : st.currentStep = ((m : ℤ)).tmod 16)
    (ht : st.nextStepTime = t0 + (m : ℚ) * (1/8)) :
    ∀ j : ℕ, j < (runTicks ticks st).1.length →
      (runTicks ticks st).1.getD j ⟨0, 0⟩ =
        ⟨(((m + j : ℕ) : ℤ)).tmod 16, t0 + ((m + j : ℕ) : ℚ) * (1/8)⟩ := by
  induction ticks generalizing st m with
  | nil =>
    intro j hj
    simp [runTicks] at hj
  | cons tick rest ih =>
    obtain ⟨fuel, now⟩ := tick
    intro j hj
    simp only [runTicks] at hj ⊢
    have hS' : 0 < st.steps := by rw [hS]; norm_num
    have hc0 : 0 ≤ st.currentStep := by rw [hc]; exact Int.tmod_nonneg _ (by norm_num)
    have hcS : st.currentStep < st.steps := by
      rw [hc, hS]
      exact Int.tmod_lt_of_pos _ (by norm_num)
    have hd : stepDuration st = 1/8 := by rw [stepDuration, hbpm]; norm_num
    rcases lt_or_le j (scheduleAux fuel st now).1.length with hj1 | hj1
    · rw [List.getD_append _ _ _ _ hj1]
      have he := scheduleAux_events fuel st now j (by rw [hsw]) hS' hc0 hcS hj1
      have hstep : ((scheduleAux fuel st now).1.getD j ⟨0, 0⟩).step =
          (((m + j : ℕ) : ℤ)).tmod 16 := by
        rw [he.1, hc, hS, tmod_add_tmod_left _ _ _ (by positivity) (by positivity) (by norm_num)]
        push_cast
        ring_nf
      have htime : ((scheduleAux fuel st now).1.getD j ⟨0, 0⟩).time =
          t0 + ((m + j : ℕ) : ℚ) * (1/8) := by
        rw [he.2, ht, hd, hsw, mul_zero, ite_self, add_zero]
        push_cast
        ring
      calc (scheduleAux fuel st now).1.getD j ⟨0, 0⟩
          = ⟨((scheduleAux fuel st now).1.getD j ⟨0, 0⟩).step,
              ((scheduleAux fuel st now).1.getD j ⟨0, 0⟩).time⟩ := rfl
        _ = ⟨(((m + j : ℕ) : ℤ)).tmod 16, t0 + ((m + j : ℕ) : ℚ) * (1/8)⟩ := by
              rw [hstep, htime]
    · rw [List.getD_append_right _ _ _ _ hj1]
      have hflds := scheduleAux_fields fuel st now
      have hcnt := scheduleAux_counters fuel st now hS' hc0 hcS
      have hres := ih (scheduleAux fuel st now).2 (m + (scheduleAux fuel st now).1.length)
        (by rw [hflds.1, hbpm])
        (by rw [hflds.2.1, hS])
        (by rw [hflds.2.2.1, hsw])
        (by rw [hcnt.1, hc, hS,
              tmod_add_tmod_left _ _ _ (by positivity) (by positivity) (by norm_num)]
            push_cast
            ring_nf)
        (by rw [hcnt.2, ht, hd]
            push_cast
            ring)
        (j - (scheduleAux fuel st now).1.length)
        (by simp only [List.length_append] at hj; omega)
      have harith : m + (scheduleAux fuel st now).1.length +
          (j - (scheduleAux fuel st now).1.length) = m + j := by omega
      rw [harith] at hres
      exact hres

/-- C4: with the sequencer at `bpm = 120`, `steps = 16`, `swing = 0`, started
with step 0 and first step time `t0`, the stream of emitted `(step, time)`
events over any run of scheduling passes satisfies: the `j`-th event is
exactly `(j mod 16, t0 + j·0.125)` — so consecutive emitted times differ by
exactly `stepDuration = (60/120)/4 = 0.125` seconds and the step indices cycle
`0..15` with no duplicates and no gaps. The step duration is recomputed from
the current bpm at each use: it is `(60/bpm)/4` for the current state, a bpm
assignment changes it for subsequently scheduled steps, and the assignment
leaves the already scheduled `nextStepTime` untouched. -/
theorem seq_timing_determinism (t0 : ℚ) (ticks : List (ℕ × ℚ)) (st : SeqState)
    (j : ℕ) (v : ℚ)
    (hbpm : st.bpm = 120) (hS : st.steps = 16) (hsw : st.swing = 0)
    (hc : st.currentStep = 0) (ht : st.nextStepTime = t0)
    (hj : j + 1 < (runTicks ticks st).1.length) :
    (runTicks ticks st).1.getD j ⟨0, 0⟩ =
        ⟨((j : ℤ)).tmod 16, t0 + (j : ℚ) * (1/8)⟩ ∧
      (runTicks ticks st).1.getD (j + 1) ⟨0, 0⟩ =
        ⟨(((j + 1 : ℕ) : ℤ)).tmod 16, t0 + ((j + 1 : ℕ) : ℚ) * (1/8)⟩ ∧
      ((runTicks ticks st).1.getD (j + 1) ⟨0, 0⟩).time -
          ((runTicks ticks st).1.getD j ⟨0, 0⟩).time = 1/8 ∧
      stepDuration st = (60 / 120) / 4 ∧
      stepDuration (setBpm v st) = 60 / max 20 (min 400 v) / 4 ∧
      (setBpm v st).nextStepTime = st.nextStepTime := by
  have h0 := runTicks_events ticks st 0 t0 hbpm hS hsw (by simp [hc]) (by simp [ht])
  have e1 := h0 j (by omega)
  have e2 := h0 (j + 1) hj
  simp only [Nat.zero_add] at e1 e2
  refine ⟨e1, e2, ?_, by rw [stepDuration, hbpm], rfl, rfl⟩
  rw [e1, e2]
  push_cast
  ring

theorem seq_timing_determinism_witness :
    (runTicks [(5, 1/2)] ⟨120, 16, 0, 0, 1/20, true, []⟩).1.getD 0 ⟨0, 0⟩ =
        ⟨(((0 : ℕ) : ℤ)).tmod 16, 1/20 + ((0 : ℕ) : ℚ) * (1/8)⟩ ∧
      (runTicks [(5, 1/2)] ⟨120, 16, 0, 0, 1/20, true, []⟩).1.getD (0 + 1) ⟨0, 0⟩ =
        ⟨(((0 + 1 : ℕ) : ℤ)).tmod 16, 1/20 + ((0 + 1 : ℕ) : ℚ) * (1/8)⟩ ∧
      ((runTicks [(5, 1/2)] ⟨120, 16, 0, 0, 1/20, true, []⟩).1.getD (0 + 1) ⟨0, 0⟩).time -
          ((runTicks [(5, 1/2)] ⟨120, 16, 0, 0, 1/20, true, []⟩).1.getD 0 ⟨0, 0⟩).time
        = 1/8 ∧
      stepDuration ⟨120, 16, 0, 0, 1/20, true, []⟩ = (60 / 120) / 4 ∧
      stepDuration (setBpm 240 ⟨120, 16, 0, 0, 1/20, true, []⟩) =
        60 / max 20 (min 400 240) / 4 ∧
      (setBpm 240 ⟨120, 16, 0, 0, 1/20, true, []⟩).nextStepTime =
        (⟨120, 16, 0, 0, 1/20, true, []⟩ : SeqState).nextStepTime :=
  seq_timing_determinism (1/20) [(5, 1/2)] ⟨120, 16, 0, 0, 1/20, true, []⟩ 0 240
    rfl rfl rfl rfl rfl
    (by norm_num [runTicks, scheduleAux, stepDuration, scheduleAheadTime])

/- ===== C8: setter bounds ===== -/

/-- Assignment to one of the sequencer's writable properties. -/
inductive SeqAction where
  | assignBpm (v : ℚ)
  | assignSteps (v : ℤ)
  | assignSwing (v : ℚ)
deriving DecidableEq

/-- Dispatch of one property assignment to the corresponding setter. -/
def applyAction (st : SeqState) (a : SeqAction) : SeqState :=
  match a with
  | .assignBpm v => setBpm v st
  | .assignSteps v => setSteps v st
  | .assignSwing v => setSwing v st

/-- A sequence of property assignments applied in order. -/
def applyActions (acts : List SeqAction) (st : SeqState) : SeqState :=
  acts.foldl applyAction st

/-- Predicate: an assignment to `steps` only writes 16 or 32 (assignments to
the other properties are unrestricted). -/
def stepsAssignOk : SeqAction → Prop
  | .assignSteps v => v = 16 ∨ v = 32
  | _ => True

instance (a : SeqAction) : Decidable (stepsAssignOk a) := by
  cases a <;> simp only [stepsAssignOk] <;> infer_instance

/-- C8 counterexample: the `steps` setter stores its argument unvalidated, so
assigning 7 leaves the stored step count at 7, which is neither 16 nor 32 —
the claimed data-model bound does not hold after arbitrary assignments. -/
theorem seq_setters_counterexample :
    (applyActions [SeqAction.assignSteps 7] seqState0).steps = 7 ∧
      ¬((applyActions [SeqAction.assignSteps 7] seqState0).steps = 16 ∨
        (applyActions [SeqAction.assignSteps 7] seqState0).steps = 32) := by
  decide

theorem seq_setters_bounds_aux (acts : List SeqAction) (st : SeqState)
    (h1 : 20 ≤ st.bpm) (h2 : st.bpm ≤ 400) (h3 : st.steps = 16 ∨ st.steps = 32)
    (h4 : 0 ≤ st.swing) (h5 : st.swing ≤ 0.5)
    (hsteps : ∀ a ∈ acts, stepsAssignOk a) :
    20 ≤ (applyActions acts st).bpm ∧ (applyActions acts st).bpm ≤ 400 ∧
      ((applyActions acts st).steps = 16 ∨ (applyActions acts st).steps = 32) ∧
      0 ≤ (applyActions acts st).swing ∧ (applyActions acts st).swing ≤ 0.5 := by
  induction acts generalizing st with
  | nil => exact ⟨h1, h2, h3, h4, h5⟩
  | cons a rest ih =>
    have hrest : ∀ b ∈ rest, stepsAssignOk b :=
      fun b hb => hsteps b (List.mem_cons_of_mem _ hb)
    have hhead := hsteps a (List.mem_cons_self _ _)
    cases a with
    | assignBpm v =>
      exact ih (setBpm v st) (le_max_left _ _)
        (max_le (by norm_num) (min_le_left _ _)) h3 h4 h5 hrest
    | assignSteps v =>
      simp only [stepsAssignOk] at hhead
      exact ih (setSteps v st) h1 h2 hhead h4 h5 hrest
    | assignSwing v =>
      exact ih (setSwing v st) h1 h2 h3 (le_max_left _ _)
        (max_le (by norm_num) (min_le_left _ _)) hrest

/-- C8 (amended): after any sequence of assignments to the sequencer's bpm,
steps and swing properties starting from the constructor state, the stored
tempo lies in `[20, 400]` and the stored swing fraction lies in `[0, 0.5]`
(those setters clamp); the stored step count however is whatever was last
assigned — it is 16 or 32 exactly when every assigned steps value was 16
or 32, because the `steps` setter performs no validation. -/
theorem seq_setters_bounds (acts : List SeqAction)
    (hsteps : ∀ a ∈ acts, stepsAssignOk a) :
    20 ≤ (applyActions acts seqState0).bpm ∧ (applyActions acts seqState0).bpm ≤ 400 ∧
      ((applyActions acts seqState0).steps = 16 ∨
        (applyActions acts seqState0).steps = 32) ∧
      0 ≤ (applyActions acts seqState0).swing ∧
      (applyActions acts seqState0).swing ≤ 0.5 :=
  seq_setters_bounds_aux acts seqState0 (by norm_num [seqState0]) (by norm_num [seqState0])
    (Or.inl rfl) (by norm_num [seqState0]) (by norm_num [seqState0]) hsteps

theorem seq_setters_bounds_witness :
    20 ≤ (applyActions [SeqAction.assignSwing 2, SeqAction.assignBpm 1000,
            SeqAction.assignSteps 32] seqState0).bpm ∧
      (applyActions [SeqAction.assignSwing 2, SeqAction.assignBpm 1000,
          SeqAction.assignSteps 32] seqState0).bpm ≤ 400 ∧
      ((applyActions [SeqAction.assignSwing 2, SeqAction.assignBpm 1000,
            SeqAction.assignSteps 32] seqState0).steps = 16 ∨
        (applyActions [SeqAction.assignSwing 2, SeqAction.assignBpm 1000,
            SeqAction.assignSteps 32] seqState0).steps = 32) ∧
      0 ≤ (applyActions [SeqAction.assignSwing 2, SeqAction.assignBpm 1000,
            SeqAction.assignSteps 32] seqState0).swing ∧
      (applyActions [SeqAction.assignSwing 2, SeqAction.assignBpm 1000,
          SeqAction.assignSteps 32] seqState0).swing ≤ 0.5 :=
  seq_setters_bounds [SeqAction.assignSwing 2, SeqAction.assignBpm 1000,
    SeqAction.assignSteps 32] (by decide)

/- ===== C10: stop is not guarded by the running flag ===== -/

/-- C10: calling `stop()` on a sequencer whose running flag is already false
is not a no-op: it again invokes every registered listener exactly once (in
registration order) with the reset sentinel `{step: -1, time: 0}`, sets the
current step index to 0, and leaves the running flag false. -/
theorem stop_not_guarded (st : SeqState) (h : st.running = false) :
    (seqStop st).2 = st.listeners.map (fun l => (l, ⟨-1, 0⟩)) ∧
      ((seqStop st).1).currentStep = 0 ∧
      ((seqStop st).1).running = false ∧
      ((seqStop st).1).listeners = st.listeners := by
  exact ⟨rfl, rfl, rfl, rfl⟩

theorem stop_not_guarded_witness :
    (seqStop ⟨120, 16, 0, 5, 2, false, [0, 1]⟩).2 =
        ([0, 1] : List ℕ).map (fun l => (l, ⟨-1, 0⟩)) ∧
      ((seqStop ⟨120, 16, 0, 5, 2, false, [0, 1]⟩).1).currentStep = 0 ∧
      ((seqStop ⟨120, 16, 0, 5, 2, false, [0, 1]⟩).1).running = false ∧
      ((seqStop ⟨120, 16, 0, 5, 2, false, [0, 1]⟩).1).listeners = [0, 1] :=
  stop_not_guarded ⟨120, 16, 0, 5, 2, false, [0, 1]⟩ rfl

/- ===== C9: percussive envelope helper (src/core/utils.js) ===== -/

/-- One scheduling call on the host `AudioParam` (value, target time). -/
inductive ParamCmd where
  | cancelScheduled (t : ℚ)
  | setValue (v t : ℚ)
  | linearRamp (v t : ℚ)
  | expRamp (v t : ℚ)
deriving DecidableEq

/-- Embedding of `schedulePercEnv` (lines 63-68 of `src/core/utils.js`) as the
ordered list of calls it performs on the automated parameter. -/
def schedulePercEnv (attackTime decayTime now peakLevel : ℚ) : List ParamCmd :=
  [ParamCmd.cancelScheduled now,
    ParamCmd.setValue 0.0001 now,
    ParamCmd.linearRamp peakLevel (now + attackTime),
    ParamCmd.expRamp 0.0001 (now + attackTime + decayTime)]

/-- C9 counterexample: at `attackTime = 1/100`, `decayTime = 1/10`, `now = 0`,
`peakLevel = 1`, the helper does not schedule a linear ramp from 0: the value
set at the start of the attack is the floor `0.0001 ≠ 0`, and no command of
the schedule carries the value 0. -/
theorem percEnv_counterexample :
    (schedulePercEnv (1/100) (1/10) 0 1).getD 1 (ParamCmd.cancelScheduled 0) =
        ParamCmd.setValue 0.0001 0 ∧
      (0.0001 : ℚ) ≠ 0 ∧
      ParamCmd.setValue 0 0 ∉ schedulePercEnv (1/100) (1/10) 0 1 ∧
      ParamCmd.linearRamp 0 0 ∉ schedulePercEnv (1/100) (1/10) 0 1 := by
  refine ⟨rfl, by norm_num, ?_, ?_⟩ <;> (intro hmem; simp [schedulePercEnv] at hmem) <;>
    norm_num at hmem

/-- C9 (amended): for every `attackTime ≥ 0`, `decayTime > 0` and
`peakLevel > 0`, the percussive envelope helper cancels pending automation,
sets the parameter to the near-zero floor `0.0001` at `now`, schedules a
linear ramp from that floor to `peakLevel` reached at `now + attackTime`,
then an exponential decay to the floor `0.0001` reached at
`now + attackTime + decayTime`; and every exponential ramp it schedules has a
strictly positive target value (never exactly 0). -/
theorem percEnv_schedule (a d now peak v t : ℚ)
    (ha : 0 ≤ a) (hd : 0 < d) (hp : 0 < peak)
    (hm : ParamCmd.expRamp v t ∈ schedulePercEnv a d now peak) :
    schedulePercEnv a d now peak =
      [ParamCmd.cancelScheduled now, ParamCmd.setValue 0.0001 now,
        ParamCmd.linearRamp peak (now + a), ParamCmd.expRamp 0.0001 (now + a + d)] ∧
      0 < v := by
  refine ⟨rfl, ?_⟩
  simp only [schedulePercEnv, List.mem_cons, List.mem_singleton] at hm
  rcases hm with h | h | h | h | h
  · exact absurd h (by simp)
  · exact absurd h (by simp)
  · exact absurd h (by simp)
  · rw [(ParamCmd.expRamp.injEq _ _ _ _).mp h |>.1]
    norm_num
  · exact absurd h (by simp)

theorem percEnv_schedule_witness :
    schedulePercEnv (1/100) (1/10) 0 1 =
        [ParamCmd.cancelScheduled 0, ParamCmd.setValue 0.0001 0,
          ParamCmd.linearRamp 1 (0 + 1/100), ParamCmd.expRamp 0.0001 (0 + 1/100 + 1/10)] ∧
      (0 : ℚ) < 0.0001 :=
  percEnv_schedule (1/100) (1/10) 0 1 0.0001 (0 + 1/100 + 1/10)
    (by norm_num) (by norm_num) (by norm_num)
    (by simp [schedulePercEnv])
